import Mathlib

/-!
Verification of the molecule-visualization geometry core: the 2D Lewis-structure
normalization pipeline (`src/components/LewisStructure.tsx`) and the 3D bond-mesh
derivation (`src/components/Molecule3D.tsx`, built on three.js vector/quaternion
operations).  JavaScript numbers are modelled as real numbers; every division or
square root the source performs is reproduced together with the guards the source
(or the three.js library functions it calls) places around it, so each definition
below is total over ℝ.
-/

/-- An atom record as consumed by both engines (`types` shape used by the app):
raw 2D position, raw 3D position, lone-pair count and formal charge. -/
structure Atom where
  id : ℤ
  element : String
  x2d : ℝ
  y2d : ℝ
  x3d : ℝ
  y3d : ℝ
  z3d : ℝ
  lonePairs : ℕ
  charge : ℤ

/-- A bond: positional endpoint indices into the atom array plus an integer order.
Indices are modelled as ℤ because JavaScript array indexing silently yields
`undefined` for any out-of-range value, negative included. -/
structure Bond where
  source : ℤ
  target : ℤ
  order : ℤ
deriving DecidableEq

/-- A molecule record: the parts of `MoleculeData` the geometry engines read. -/
structure Molecule where
  atoms : List Atom
  bonds : List Bond

/-- JavaScript array indexing `arr[i]`: `some` element when `0 ≤ i < length`,
`none` (that is, `undefined`) otherwise. -/
def indexAt (l : List α) (i : ℤ) : Option α :=
  if 0 ≤ i then l.get? i.toNat else none

/-- Euclidean distance between two 2D points, as computed by
`Math.sqrt(dx*dx + dy*dy)` in `LewisStructure.tsx` lines 26-28 and 95-97. -/
noncomputable def dist2 (p q : ℝ × ℝ) : ℝ :=
  Real.sqrt ((p.1 - q.1) ^ 2 + (p.2 - q.2) ^ 2)

/-- The accumulation loop of `LewisStructure.tsx` lines 20-31: fold over the bond
list, adding the raw distance and incrementing the count exactly when both endpoint
indices resolve to atoms (`if (source && target)`), skipping the bond otherwise. -/
noncomputable def bondAccum (pts : List (ℝ × ℝ)) (bs : List Bond) : ℝ × ℕ :=
  bs.foldl (fun acc b =>
    match indexAt pts b.source, indexAt pts b.target with
    | some s, some t => (acc.1 + dist2 s t, acc.2 + 1)
    | _, _ => acc) (0, 0)

/-- The raw 2D positions of the molecule's atoms, in atom-array order. -/
def rawPositions (mol : Molecule) : List (ℝ × ℝ) :=
  mol.atoms.map (fun a => (a.x2d, a.y2d))

/-- `avgLen` of `LewisStructure.tsx` line 34:
`bondCount > 0 ? totalLength / bondCount : 1`. -/
noncomputable def avgLen (mol : Molecule) : ℝ :=
  let acc := bondAccum (rawPositions mol) mol.bonds
  if 0 < acc.2 then acc.1 / (acc.2 : ℝ) else 1

/-- `TARGET_BOND_LENGTH` of `LewisStructure.tsx` line 37. -/
def TARGET_BOND_LENGTH : ℝ := 60

/-- `scale` of `LewisStructure.tsx` line 40:
`avgLen > 0.001 ? TARGET_BOND_LENGTH / avgLen : 60`. -/
noncomputable def scaleFactor (mol : Molecule) : ℝ :=
  if 0.001 < avgLen mol then TARGET_BOND_LENGTH / avgLen mol else 60

/-- A normalized atom: the original atom record plus its scaled 2D position
(`scaledAtoms` of `LewisStructure.tsx` lines 43-47). -/
structure NAtom where
  atom : Atom
  x : ℝ
  y : ℝ

/-- `scaledAtoms` of `LewisStructure.tsx` lines 43-47: every atom's raw position
multiplied componentwise by the single scale factor. -/
noncomputable def scaledAtoms (mol : Molecule) : List NAtom :=
  mol.atoms.map (fun a => ⟨a, a.x2d * scaleFactor mol, a.y2d * scaleFactor mol⟩)

/-- Minimum of a list of reals.  The source folds `Math.min` starting from
`Infinity` (`LewisStructure.tsx` lines 50-56); on a nonempty list that equals the
fold starting from the first element, which is how it is written here (the source
only ever runs this on a nonempty list thanks to the early return on line 15). -/
noncomputable def listMin (l : List ℝ) : ℝ :=
  match l with
  | [] => 0
  | x :: xs => xs.foldl min x

/-- Maximum of a list of reals (fold of `Math.max` starting from `-Infinity` in
the source, equal on nonempty lists to the fold from the first element). -/
noncomputable def listMax (l : List ℝ) : ℝ :=
  match l with
  | [] => 0
  | x :: xs => xs.foldl max x

/-- `PADDING` of `LewisStructure.tsx` line 60. -/
def PADDING : ℝ := 40

/-- The view frame: the `viewBox` rectangle `boxX boxY boxW boxH` of
`LewisStructure.tsx` lines 61-64. -/
structure Frame where
  x : ℝ
  y : ℝ
  w : ℝ
  h : ℝ

/-- The result of the `useMemo` normalization pass of `LewisStructure.tsx`
lines 14-71. -/
structure LayoutResult where
  normalizedAtoms : List NAtom
  bonds : List Bond
  frame : Frame

/-- The normalization pass of `LewisStructure.tsx` lines 14-71: empty atom list
short-circuits to a default frame (the `viewBox "0 0 100 100"` of line 16);
otherwise scale all atoms, take the bounding box, and pad it on all sides. -/
noncomputable def layout (mol : Molecule) : LayoutResult :=
  if mol.atoms.isEmpty then ⟨[], [], ⟨0, 0, 100, 100⟩⟩
  else
    let sa := scaledAtoms mol
    let minX := listMin (sa.map NAtom.x)
    let maxX := listMax (sa.map NAtom.x)
    let minY := listMin (sa.map NAtom.y)
    let maxY := listMax (sa.map NAtom.y)
    ⟨sa, mol.bonds,
      ⟨minX - PADDING, minY - PADDING,
       (maxX - minX) + PADDING * 2, (maxY - minY) + PADDING * 2⟩⟩

/-- Whether a bond's two endpoint indices both resolve to atoms of the position
list — the condition under which the source's averaging pass counts the bond. -/
def resolvesB (pts : List (ℝ × ℝ)) (b : Bond) : Bool :=
  (indexAt pts b.source).isSome && (indexAt pts b.target).isSome

/-- The raw length of a resolving bond (0 for a non-resolving one, which the
spec-side mean never evaluates on). -/
noncomputable def bondRawLen (pts : List (ℝ × ℝ)) (b : Bond) : ℝ :=
  match indexAt pts b.source, indexAt pts b.target with
  | some s, some t => dist2 s t
  | _, _ => 0

/-- Modelled from the spec's wording of layout step 1: "Compute the mean
Euclidean distance between raw 2D positions of all bonded atom pairs that resolve
to valid indices (bonds referencing out-of-range indices are skipped silently
...).  If no bonds resolve, default this mean to 1." -/
noncomputable def meanRawBondLengthSpec (mol : Molecule) : ℝ :=
  let rb := mol.bonds.filter (resolvesB (rawPositions mol))
  if rb = [] then 1
  else (rb.map (bondRawLen (rawPositions mol))).sum / (rb.length : ℝ)

/-- Modelled from the spec's wording of layout step 2: "uniform scale factor =
(target bond length constant) / (mean raw bond length), guarding against
near-zero mean length by falling back to a fixed default scale." -/
noncomputable def scaleFactorSpec (mol : Molecule) : ℝ :=
  if 0.001 < meanRawBondLengthSpec mol then TARGET_BOND_LENGTH / meanRawBondLengthSpec mol
  else 60

/-- Modelled from the spec's wording of layout step 3: "Apply the scale factor
uniformly to every atom's raw position" — the same single scalar multiplies both
coordinates of every atom. -/
noncomputable def normalizedAtomsSpec (mol : Molecule) : List NAtom :=
  mol.atoms.map (fun a => ⟨a, scaleFactorSpec mol * a.x2d, scaleFactorSpec mol * a.y2d⟩)

/-- The source's fold over bonds computes exactly the sum of raw lengths and the
count of the bonds that resolve (out-of-range bonds contribute nothing). -/
theorem bondAccum_eq (pts : List (ℝ × ℝ)) (bs : List Bond) :
    bondAccum pts bs =
      (((bs.filter (resolvesB pts)).map (bondRawLen pts)).sum,
        (bs.filter (resolvesB pts)).length) := by
  suffices h : ∀ (bs : List Bond) (t : ℝ) (n : ℕ),
      bs.foldl (fun acc b =>
        match indexAt pts b.source, indexAt pts b.target with
        | some s, some t => (acc.1 + dist2 s t, acc.2 + 1)
        | _, _ => acc) (t, n) =
      (t + ((bs.filter (resolvesB pts)).map (bondRawLen pts)).sum,
        n + (bs.filter (resolvesB pts)).length) by
    simpa using h bs 0 0
  intro bs
  induction bs with
  | nil => intro t n; simp
  | cons b tl ih =>
    intro t n
    rcases h1 : indexAt pts b.source with _ | s <;>
      rcases h2 : indexAt pts b.target with _ | u <;>
      simp [List.foldl_cons, h1, h2, ih, resolvesB, List.filter_cons,
        bondRawLen, add_assoc, Nat.add_comm]

/-- The count of resolving bonds, shared by the code-side fold and the spec-side
filter. -/
theorem bondAccum_snd (pts : List (ℝ × ℝ)) (bs : List Bond) :
    (bondAccum pts bs).2 = (bs.filter (resolvesB pts)).length := by
  rw [bondAccum_eq]

/-- C1: the 2D layout's scale derivation follows the specified steps — the mean
raw bond length is taken over exactly the bonds whose endpoint indices resolve
(out-of-range bonds are skipped, not fatal), defaulting to 1 when no bond
resolves; the scale factor is the target bond length constant divided by this
mean, falling back to the fixed default scale when the mean is near zero; and
this single scalar multiplies both coordinates of every atom's raw position. -/
theorem c1_scale_derivation_follows_spec (mol : Molecule) :
    avgLen mol = meanRawBondLengthSpec mol ∧
    scaleFactor mol = scaleFactorSpec mol ∧
    scaledAtoms mol = normalizedAtomsSpec mol := by
  have hmean : avgLen mol = meanRawBondLengthSpec mol := by
    rw [avgLen, meanRawBondLengthSpec, bondAccum_eq]
    rcases h : mol.bonds.filter (resolvesB (rawPositions mol)) with _ | ⟨b, tl⟩
    · simp [h]
    · simp [h]
  have hscale : scaleFactor mol = scaleFactorSpec mol := by
    rw [scaleFactor, scaleFactorSpec, hmean]
  refine ⟨hmean, hscale, ?_⟩
  rw [scaledAtoms, normalizedAtomsSpec]
  exact List.map_congr_left (fun a _ => by simp [hscale, mul_comm])

/-- The line segments emitted for one bond by the 2D renderer
(`LewisStructure.tsx` lines 95-151): compute the endpoint difference and its
length; skip the bond entirely when the length is below 1 (`if (len < 1) return
null`); otherwise emit 1, 2 or 3 `line` elements according to the order, the
non-center ones displaced along the unit normal `(-dy/len, dx/len)` by the fixed
offset 3 (order 2) or by `3 * 2.5` (order 3); any other order emits nothing
(the trailing `return null`). -/
noncomputable def segments2D (s e : ℝ × ℝ) (order : ℤ) :
    List ((ℝ × ℝ) × (ℝ × ℝ)) :=
  let dx := e.1 - s.1
  let dy := e.2 - s.2
  let len := Real.sqrt (dx ^ 2 + dy ^ 2)
  if len < 1 then []
  else
    let nx := -dy / len
    let ny := dx / len
    if order = 1 then [(s, e)]
    else if order = 2 then
      [((s.1 + nx * 3, s.2 + ny * 3), (e.1 + nx * 3, e.2 + ny * 3)),
       ((s.1 - nx * 3, s.2 - ny * 3), (e.1 - nx * 3, e.2 - ny * 3))]
    else if order = 3 then
      [(s, e),
       ((s.1 + nx * 3 * 2.5, s.2 + ny * 3 * 2.5),
        (e.1 + nx * 3 * 2.5, e.2 + ny * 3 * 2.5)),
       ((s.1 - nx * 3 * 2.5, s.2 - ny * 3 * 2.5),
        (e.1 - nx * 3 * 2.5, e.2 - ny * 3 * 2.5))]
    else []

/-- The normalized 2D position of each atom, in array order — what the bond
renderer indexes into (`normalizedAtoms[bond.source]`). -/
noncomputable def normPositions (mol : Molecule) : List (ℝ × ℝ) :=
  (scaledAtoms mol).map (fun a => (a.x, a.y))

/-- One bond's rendered segments inside the full 2D pass: resolve both endpoint
indices against the normalized atoms (`if(!start || !end) return null`,
`LewisStructure.tsx` line 93), then derive the segments. -/
noncomputable def renderBond2D (pts : List (ℝ × ℝ)) (b : Bond) :
    List ((ℝ × ℝ) × (ℝ × ℝ)) :=
  match indexAt pts b.source, indexAt pts b.target with
  | some s, some t => segments2D s t b.order
  | _, _ => []

/-- The unit normal of a bond direction, as the source computes it
(`nx = -dy / len`, `ny = dx / len`). -/
noncomputable def unitNormal (s e : ℝ × ℝ) : ℝ × ℝ :=
  (-(e.2 - s.2) / dist2 s e, (e.1 - s.1) / dist2 s e)

/-- The distance the renderer computes for a bond equals `dist2` of its
endpoints (the two squared differences agree up to sign). -/
theorem dist2_eq (s e : ℝ × ℝ) :
    dist2 s e = Real.sqrt ((e.1 - s.1) ^ 2 + (e.2 - s.2) ^ 2) := by
  rw [dist2]
  ring_nf

/-- Below the length-1 guard, nothing is emitted. -/
theorem segments2D_of_lt (s e : ℝ × ℝ) (order : ℤ) (h : dist2 s e < 1) :
    segments2D s e order = [] := by
  rw [segments2D]
  simp only [← dist2_eq, if_pos h]

/-- Order-1 rendering above the guard: the single center segment. -/
theorem segments2D_one (s e : ℝ × ℝ) (h : 1 ≤ dist2 s e) :
    segments2D s e 1 = [(s, e)] := by
  rw [segments2D]
  simp only [← dist2_eq, if_neg (not_lt.2 h)]
  norm_num

/-- Order-2 rendering above the guard: the two segments offset by `±3` times the
unit normal. -/
theorem segments2D_two (s e : ℝ × ℝ) (h : 1 ≤ dist2 s e) :
    segments2D s e 2 =
      [((s.1 + (unitNormal s e).1 * 3, s.2 + (unitNormal s e).2 * 3),
        (e.1 + (unitNormal s e).1 * 3, e.2 + (unitNormal s e).2 * 3)),
       ((s.1 - (unitNormal s e).1 * 3, s.2 - (unitNormal s e).2 * 3),
        (e.1 - (unitNormal s e).1 * 3, e.2 - (unitNormal s e).2 * 3))] := by
  rw [segments2D]
  simp only [← dist2_eq, if_neg (not_lt.2 h)]
  norm_num [unitNormal]

/-- Order-3 rendering above the guard: the center segment plus two segments
offset by `±3 * 2.5` times the unit normal. -/
theorem segments2D_three (s e : ℝ × ℝ) (h : 1 ≤ dist2 s e) :
    segments2D s e 3 =
      [(s, e),
       ((s.1 + (unitNormal s e).1 * 3 * 2.5, s.2 + (unitNormal s e).2 * 3 * 2.5),
        (e.1 + (unitNormal s e).1 * 3 * 2.5, e.2 + (unitNormal s e).2 * 3 * 2.5)),
       ((s.1 - (unitNormal s e).1 * 3 * 2.5, s.2 - (unitNormal s e).2 * 3 * 2.5),
        (e.1 - (unitNormal s e).1 * 3 * 2.5, e.2 - (unitNormal s e).2 * 3 * 2.5))] := by
  rw [segments2D]
  simp only [← dist2_eq, if_neg (not_lt.2 h)]
  norm_num [unitNormal]

/-- Any order outside `{1,2,3}` emits no 2D segment. -/
theorem segments2D_other (s e : ℝ × ℝ) (order : ℤ)
    (h1 : order ≠ 1) (h2 : order ≠ 2) (h3 : order ≠ 3) :
    segments2D s e order = [] := by
  rw [segments2D]
  by_cases hlen : Real.sqrt ((e.1 - s.1) ^ 2 + (e.2 - s.2) ^ 2) < 1
  · simp only [if_pos hlen]
  · simp only [if_neg hlen, if_neg h1, if_neg h2, if_neg h3]

/-- Distance along the x-axis evaluates to the absolute coordinate difference;
stated for the concrete nonnegative differences used by the witnesses. -/
theorem dist2_horizontal (a b : ℝ) (c : ℝ) (h : 0 ≤ b - a) :
    dist2 (a, c) (b, c) = b - a := by
  rw [dist2_eq]
  simp only []
  rw [show (b - a) ^ 2 + (c - c) ^ 2 = (b - a) ^ 2 by ring]
  exact Real.sqrt_sq h

/-- C9: the 2D engine skips every bond whose normalized endpoint distance is
below 1 SVG unit — including bonds with distinct but very close endpoints — and
emits segments only when that distance is at least 1, whatever the order. -/
theorem c9_short_bonds_skipped (s e : ℝ × ℝ) (order : ℤ) :
    (dist2 s e < 1 → segments2D s e order = []) ∧
    (segments2D s e order ≠ [] → 1 ≤ dist2 s e) := by
  constructor
  · exact segments2D_of_lt s e order
  · intro h
    by_contra hlt
    push_neg at hlt
    exact h (segments2D_of_lt s e order hlt)

/-- Witness for C9 at concrete inputs: the bond from `(0,0)` to `(1/2,0)` has
normalized distance `1/2 < 1` and yields no segment, while the order-1 bond from
`(0,0)` to `(60,0)` renders a nonempty segment list, so its distance is `≥ 1`. -/
theorem c9_short_bonds_skipped_witness :
    segments2D (0, 0) ((1 : ℝ) / 2, 0) 1 = [] ∧
    (1 : ℝ) ≤ dist2 (0, 0) (60, 0) := by
  have h1 : dist2 ((0 : ℝ), (0 : ℝ)) ((1 : ℝ) / 2, 0) = 1 / 2 := by
    simpa using dist2_horizontal 0 ((1 : ℝ) / 2) 0 (by norm_num)
  have h2 : dist2 ((0 : ℝ), (0 : ℝ)) ((60 : ℝ), 0) = 60 := by
    simpa using dist2_horizontal 0 (60 : ℝ) 0 (by norm_num)
  refine ⟨(c9_short_bonds_skipped (0, 0) ((1 : ℝ) / 2, 0) 1).1 (by rw [h1]; norm_num),
    (c9_short_bonds_skipped (0, 0) (60, 0) 1).2 ?_⟩
  rw [segments2D_one _ _ (by rw [h2]; norm_num)]
  simp

/-- Distance along the y-axis evaluates to the nonnegative coordinate
difference. -/
theorem dist2_vertical (a b : ℝ) (c : ℝ) (h : 0 ≤ b - a) :
    dist2 (c, a) (c, b) = b - a := by
  rw [dist2_eq]
  simp only []
  rw [show (c - c) ^ 2 + (b - a) ^ 2 = (b - a) ^ 2 by ring]
  exact Real.sqrt_sq h

/-- C3 amended: for a 2D bond of order `o ∈ {1,2,3}` whose normalized endpoint
distance is at least 1 SVG unit, exactly `o` segments are emitted: order 1 gives
the single center segment, order 2 two segments displaced by `±3` along the unit
normal, order 3 the center segment plus two displaced by `±3 * 2.5` — a larger
multiplier than the order-2 offset. -/
theorem c3_segment_multiplicity_amended (s e : ℝ × ℝ) (order : ℤ)
    (ho : order = 1 ∨ order = 2 ∨ order = 3) (h : 1 ≤ dist2 s e) :
    ((segments2D s e order).length : ℤ) = order ∧
    (order = 1 → segments2D s e order = [(s, e)]) ∧
    (order = 2 → segments2D s e order =
      [((s.1 + (unitNormal s e).1 * 3, s.2 + (unitNormal s e).2 * 3),
        (e.1 + (unitNormal s e).1 * 3, e.2 + (unitNormal s e).2 * 3)),
       ((s.1 - (unitNormal s e).1 * 3, s.2 - (unitNormal s e).2 * 3),
        (e.1 - (unitNormal s e).1 * 3, e.2 - (unitNormal s e).2 * 3))]) ∧
    (order = 3 → segments2D s e order =
      [(s, e),
       ((s.1 + (unitNormal s e).1 * 3 * 2.5, s.2 + (unitNormal s e).2 * 3 * 2.5),
        (e.1 + (unitNormal s e).1 * 3 * 2.5, e.2 + (unitNormal s e).2 * 3 * 2.5)),
       ((s.1 - (unitNormal s e).1 * 3 * 2.5, s.2 - (unitNormal s e).2 * 3 * 2.5),
        (e.1 - (unitNormal s e).1 * 3 * 2.5, e.2 - (unitNormal s e).2 * 3 * 2.5))]) := by
  rcases ho with rfl | rfl | rfl
  · refine ⟨?_, fun _ => segments2D_one s e h, ?_, ?_⟩
    · rw [segments2D_one s e h]; rfl
    · intro hc; exact absurd hc (by decide)
    · intro hc; exact absurd hc (by decide)
  · refine ⟨?_, ?_, fun _ => segments2D_two s e h, ?_⟩
    · rw [segments2D_two s e h]; rfl
    · intro hc; exact absurd hc (by decide)
    · intro hc; exact absurd hc (by decide)
  · refine ⟨?_, ?_, ?_, fun _ => segments2D_three s e h⟩
    · rw [segments2D_three s e h]; rfl
    · intro hc; exact absurd hc (by decide)
    · intro hc; exact absurd hc (by decide)

/-- Witness for the amended C3: the order-3 bond from `(0,0)` to `(60,0)` has
normalized distance `60 ≥ 1`, and the theorem instantiates to its three
segments. -/
theorem c3_segment_multiplicity_amended_witness :
    ((segments2D ((0 : ℝ), (0 : ℝ)) ((60 : ℝ), (0 : ℝ)) 3).length : ℤ) = 3 ∧
    ((3 : ℤ) = 1 → segments2D ((0 : ℝ), (0 : ℝ)) ((60 : ℝ), (0 : ℝ)) 3 =
      [(((0 : ℝ), (0 : ℝ)), ((60 : ℝ), (0 : ℝ)))]) ∧
    ((3 : ℤ) = 2 → segments2D ((0 : ℝ), (0 : ℝ)) ((60 : ℝ), (0 : ℝ)) 3 =
      [((0 + (unitNormal (0, 0) (60, 0)).1 * 3, 0 + (unitNormal (0, 0) (60, 0)).2 * 3),
        (60 + (unitNormal (0, 0) (60, 0)).1 * 3, 0 + (unitNormal (0, 0) (60, 0)).2 * 3)),
       ((0 - (unitNormal (0, 0) (60, 0)).1 * 3, 0 - (unitNormal (0, 0) (60, 0)).2 * 3),
        (60 - (unitNormal (0, 0) (60, 0)).1 * 3, 0 - (unitNormal (0, 0) (60, 0)).2 * 3))]) ∧
    ((3 : ℤ) = 3 → segments2D ((0 : ℝ), (0 : ℝ)) ((60 : ℝ), (0 : ℝ)) 3 =
      [(((0 : ℝ), (0 : ℝ)), ((60 : ℝ), (0 : ℝ))),
       ((0 + (unitNormal (0, 0) (60, 0)).1 * 3 * 2.5, 0 + (unitNormal (0, 0) (60, 0)).2 * 3 * 2.5),
        (60 + (unitNormal (0, 0) (60, 0)).1 * 3 * 2.5, 0 + (unitNormal (0, 0) (60, 0)).2 * 3 * 2.5)),
       ((0 - (unitNormal (0, 0) (60, 0)).1 * 3 * 2.5, 0 - (unitNormal (0, 0) (60, 0)).2 * 3 * 2.5),
        (60 - (unitNormal (0, 0) (60, 0)).1 * 3 * 2.5, 0 - (unitNormal (0, 0) (60, 0)).2 * 3 * 2.5))]) := by
  have h : (1 : ℝ) ≤ dist2 (0, 0) (60, 0) := by
    rw [show dist2 ((0 : ℝ), (0 : ℝ)) ((60 : ℝ), 0) = 60 by
      simpa using dist2_horizontal 0 (60 : ℝ) 0 (by norm_num)]
    norm_num
  simpa using c3_segment_multiplicity_amended (0, 0) (60, 0) 3 (by norm_num) h

/-- A three-atom chain whose second bond is two hundred times shorter than the
first: after normalization its endpoints stay distinct but end up closer than
1 SVG unit. -/
noncomputable def mol3CE : Molecule :=
  ⟨[⟨0, "C", 0, 0, 0, 0, 0, 0, 0⟩,
    ⟨1, "C", 1, 0, 0, 0, 0, 0, 0⟩,
    ⟨2, "H", 1, 1 / 200, 0, 0, 0, 0, 0⟩],
   [⟨0, 1, 1⟩, ⟨1, 2, 1⟩]⟩

/-- C3 counterexample: in the molecule `mol3CE`, the order-1 bond from atom 1 to
atom 2 has distinct normalized endpoints `(8000/67, 0)` and `(8000/67, 40/67)`,
yet the renderer emits zero segments for it (its normalized length `40/67` falls
below the length-1 guard), refuting "exactly `o` segments whenever the
normalized endpoints do not coincide". -/
theorem c3_segment_multiplicity_counterexample :
    normPositions mol3CE =
      [((0 : ℝ), (0 : ℝ)), (8000 / 67, 0), (8000 / 67, 40 / 67)] ∧
    ((8000 / 67 : ℝ), (0 : ℝ)) ≠ ((8000 / 67 : ℝ), (40 / 67 : ℝ)) ∧
    segments2D ((8000 / 67 : ℝ), (0 : ℝ)) ((8000 / 67 : ℝ), (40 / 67 : ℝ)) 1 = [] := by
  have hd1 : dist2 ((0 : ℝ), (0 : ℝ)) ((1 : ℝ), (0 : ℝ)) = 1 := by
    simpa using dist2_horizontal 0 (1 : ℝ) 0 (by norm_num)
  have hd2 : dist2 ((1 : ℝ), (0 : ℝ)) ((1 : ℝ), (200 : ℝ)⁻¹) = (200 : ℝ)⁻¹ := by
    simpa using dist2_vertical 0 ((200 : ℝ)⁻¹) 1 (by norm_num)
  have hd1z : dist2 (0 : ℝ × ℝ) ((1 : ℝ), (0 : ℝ)) = 1 := hd1
  have hacc : bondAccum (rawPositions mol3CE) mol3CE.bonds = (1 + 1 / 200, 2) := by
    simp [bondAccum, rawPositions, mol3CE, indexAt, List.get?, hd1, hd2, hd1z]
  have havg : avgLen mol3CE = 201 / 400 := by
    rw [avgLen, hacc]
    norm_num
  have hscale : scaleFactor mol3CE = 8000 / 67 := by
    rw [scaleFactor, havg, if_pos (by norm_num), TARGET_BOND_LENGTH]
    norm_num
  refine ⟨?_, by simp; norm_num, ?_⟩
  · simp only [normPositions, scaledAtoms, List.map_map]
    rw [hscale]
    rw [show mol3CE.atoms =
      [⟨0, "C", 0, 0, 0, 0, 0, 0, 0⟩,
       ⟨1, "C", 1, 0, 0, 0, 0, 0, 0⟩,
       ⟨2, "H", 1, 1 / 200, 0, 0, 0, 0, 0⟩] from rfl]
    simp only [List.map_cons, List.map_nil, Function.comp]
    norm_num
  · refine segments2D_of_lt _ _ _ ?_
    rw [show dist2 ((8000 / 67 : ℝ), (0 : ℝ)) ((8000 / 67 : ℝ), (40 / 67 : ℝ)) = 40 / 67 by
      simpa using dist2_vertical 0 (40 / 67 : ℝ) (8000 / 67) (by norm_num)]
    norm_num

/-- Indexing commutes with mapping a function over the list. -/
theorem indexAt_map (f : α → β) (l : List α) (i : ℤ) :
    indexAt (l.map f) i = (indexAt l i).map f := by
  rw [indexAt, indexAt]
  by_cases h : 0 ≤ i
  · simp [if_pos h, List.get?_map]
  · simp [if_neg h]

/-- Scaling both coordinates of both points by a common nonnegative factor
scales the 2D distance by that factor. -/
theorem dist2_scale (c : ℝ) (hc : 0 ≤ c) (p q : ℝ × ℝ) :
    dist2 (p.1 * c, p.2 * c) (q.1 * c, q.2 * c) = c * dist2 p q := by
  rw [dist2, dist2]
  rw [show (p.1 * c - q.1 * c) ^ 2 + (p.2 * c - q.2 * c) ^ 2 =
      c ^ 2 * ((p.1 - q.1) ^ 2 + (p.2 - q.2) ^ 2) by ring]
  rw [Real.sqrt_mul (sq_nonneg c), Real.sqrt_sq hc]

/-- Mapping a function over the positions does not change which bonds
resolve. -/
theorem resolvesB_map (f : ℝ × ℝ → ℝ × ℝ) (pts : List (ℝ × ℝ)) (b : Bond) :
    resolvesB (pts.map f) b = resolvesB pts b := by
  rw [resolvesB, resolvesB, indexAt_map, indexAt_map]
  rcases indexAt pts b.source with _ | s <;> rcases indexAt pts b.target with _ | u <;> rfl

/-- Uniformly scaling the positions by a nonnegative factor scales each bond's
raw length by that factor. -/
theorem bondRawLen_scale (c : ℝ) (hc : 0 ≤ c) (pts : List (ℝ × ℝ)) (b : Bond) :
    bondRawLen (pts.map (fun p => (p.1 * c, p.2 * c))) b = c * bondRawLen pts b := by
  rw [bondRawLen, bondRawLen]
  rcases h1 : indexAt pts b.source with _ | s <;>
    rcases h2 : indexAt pts b.target with _ | u <;>
    simp [indexAt_map, h1, h2, dist2_scale c hc]

/-- Running the averaging fold over uniformly scaled positions multiplies the
accumulated total by the scale and leaves the resolving-bond count unchanged. -/
theorem bondAccum_scale (c : ℝ) (hc : 0 ≤ c) (pts : List (ℝ × ℝ))
    (bs : List Bond) :
    bondAccum (pts.map (fun p => (p.1 * c, p.2 * c))) bs =
      (c * (bondAccum pts bs).1, (bondAccum pts bs).2) := by
  rw [bondAccum_eq, bondAccum_eq]
  have hfilter : bs.filter (resolvesB (pts.map (fun p => (p.1 * c, p.2 * c)))) =
      bs.filter (resolvesB pts) :=
    List.filter_congr (fun b _ => resolvesB_map _ pts b)
  rw [hfilter]
  have hmap : (bs.filter (resolvesB pts)).map
        (bondRawLen (pts.map (fun p => (p.1 * c, p.2 * c)))) =
      (bs.filter (resolvesB pts)).map (fun b => c * bondRawLen pts b) :=
    List.map_congr_left (fun b _ => bondRawLen_scale c hc pts b)
  rw [hmap]
  rw [show ((bs.filter (resolvesB pts)).map (fun b => c * bondRawLen pts b)).sum =
      c * ((bs.filter (resolvesB pts)).map (bondRawLen pts)).sum by
    induction bs.filter (resolvesB pts) with
    | nil => simp
    | cons b tl ih => simp [ih]; ring]

/-- The normalized positions are the raw positions with both coordinates
multiplied by the scale factor. -/
theorem normPositions_eq (mol : Molecule) :
    normPositions mol =
      (rawPositions mol).map
        (fun p => (p.1 * scaleFactor mol, p.2 * scaleFactor mol)) := by
  rw [normPositions, scaledAtoms, rawPositions, List.map_map, List.map_map]
  rfl

/-- The mean rendered (normalized) bond length: the same accumulation the scale
pass performs, run over the normalized positions, total divided by count. -/
noncomputable def meanNormLen (mol : Molecule) : ℝ :=
  (bondAccum (normPositions mol) mol.bonds).1 /
    ((bondAccum (normPositions mol) mol.bonds).2 : ℝ)

/-- C2 amended: for every molecule with at least one resolving bond whose mean
raw bond length exceeds the near-zero guard `0.001`, applying the computed scale
factor yields a mean normalized bond length equal to the target constant 60. -/
theorem c2_mean_bond_length_amended (mol : Molecule)
    (h1 : 0 < (bondAccum (rawPositions mol) mol.bonds).2)
    (h2 : 0.001 < avgLen mol) :
    meanNormLen mol = 60 := by
  have havg : avgLen mol =
      (bondAccum (rawPositions mol) mol.bonds).1 /
        ((bondAccum (rawPositions mol) mol.bonds).2 : ℝ) := by
    rw [avgLen, if_pos h1]
  have hpos : (0 : ℝ) < avgLen mol := lt_trans (by norm_num) h2
  have hscale : scaleFactor mol = 60 / avgLen mol := by
    rw [scaleFactor, if_pos h2, TARGET_BOND_LENGTH]
  have hcnonneg : 0 ≤ scaleFactor mol := by
    rw [hscale]
    positivity
  have hN : bondAccum (normPositions mol) mol.bonds =
      (scaleFactor mol * (bondAccum (rawPositions mol) mol.bonds).1,
        (bondAccum (rawPositions mol) mol.bonds).2) := by
    rw [normPositions_eq]
    exact bondAccum_scale (scaleFactor mol) hcnonneg (rawPositions mol) mol.bonds
  have hn : (0 : ℝ) < ((bondAccum (rawPositions mol) mol.bonds).2 : ℝ) := by
    exact_mod_cast h1
  rw [meanNormLen, hN]
  rw [show scaleFactor mol * (bondAccum (rawPositions mol) mol.bonds).1 /
      ((bondAccum (rawPositions mol) mol.bonds).2 : ℝ) =
      scaleFactor mol * ((bondAccum (rawPositions mol) mol.bonds).1 /
        ((bondAccum (rawPositions mol) mol.bonds).2 : ℝ)) by ring]
  rw [← havg, hscale]
  field_simp

/-- A single-bond molecule with unit raw bond length. -/
noncomputable def mol2W : Molecule :=
  ⟨[⟨0, "H", 0, 0, 0, 0, 0, 0, 0⟩, ⟨1, "H", 1, 0, 0, 0, 0, 0, 0⟩],
   [⟨0, 1, 1⟩]⟩

/-- Witness for the amended C2: the unit-length single-bond molecule `mol2W` has
one resolving bond and mean raw length `1 > 0.001`, and its mean normalized bond
length evaluates to 60. -/
theorem c2_mean_bond_length_amended_witness :
    0 < (bondAccum (rawPositions mol2W) mol2W.bonds).2 ∧
    (0.001 : ℝ) < avgLen mol2W ∧
    meanNormLen mol2W = 60 := by
  have hd1 : dist2 ((0 : ℝ), (0 : ℝ)) ((1 : ℝ), (0 : ℝ)) = 1 := by
    simpa using dist2_horizontal 0 (1 : ℝ) 0 (by norm_num)
  have hd1z : dist2 (0 : ℝ × ℝ) ((1 : ℝ), (0 : ℝ)) = 1 := hd1
  have hacc : bondAccum (rawPositions mol2W) mol2W.bonds = (1, 1) := by
    simp [bondAccum, rawPositions, mol2W, indexAt, List.get?, hd1, hd1z]
  have h1 : 0 < (bondAccum (rawPositions mol2W) mol2W.bonds).2 := by
    rw [hacc]; norm_num
  have h2 : (0.001 : ℝ) < avgLen mol2W := by
    rw [avgLen, hacc]; norm_num
  exact ⟨h1, h2, c2_mean_bond_length_amended mol2W h1 h2⟩

/-- A molecule whose single bond joins two coincident atoms: raw length 0. -/
noncomputable def mol2CE : Molecule :=
  ⟨[⟨0, "H", 0, 0, 0, 0, 0, 0, 0⟩, ⟨1, "H", 0, 0, 0, 0, 0, 0, 0⟩],
   [⟨0, 1, 1⟩]⟩

/-- C2 counterexample: `mol2CE` has a bond (so "at least one bond" holds), but
its mean raw bond length is 0, the scale falls back to the default 60, and the
mean normalized bond length is 0, not the target constant 60 — refuting the
claim as stated for all molecules with at least one bond. -/
theorem c2_mean_bond_length_counterexample :
    mol2CE.bonds ≠ [] ∧ meanNormLen mol2CE ≠ 60 := by
  have hd0 : dist2 ((0 : ℝ), (0 : ℝ)) ((0 : ℝ), (0 : ℝ)) = 0 := by
    simpa using dist2_horizontal 0 (0 : ℝ) 0 (by norm_num)
  have hd0z : dist2 (0 : ℝ × ℝ) (0 : ℝ × ℝ) = 0 := hd0
  have hacc : bondAccum (rawPositions mol2CE) mol2CE.bonds = (0, 1) := by
    simp [bondAccum, rawPositions, mol2CE, indexAt, List.get?, hd0, hd0z]
  have havg : avgLen mol2CE = 0 := by
    rw [avgLen, hacc]; norm_num
  have hscale : scaleFactor mol2CE = 60 := by
    rw [scaleFactor, havg, if_neg (by norm_num)]
  have hN : bondAccum (normPositions mol2CE) mol2CE.bonds = (60 * 0, 1) := by
    rw [normPositions_eq, hscale,
      bondAccum_scale (60 : ℝ) (by norm_num) (rawPositions mol2CE) mol2CE.bonds, hacc]
  refine ⟨by simp [mol2CE], ?_⟩
  rw [meanNormLen, hN]
  norm_num

/-- The largest extent of the lone-pair decoration from the atom center
(`LewisStructure.tsx` lines 192-200, at the non-hydrogen radius 14): the ring
group sits at distance `radius + 4`, each dot center a further `|(±2.5, -6)|`
away, plus the dot radius 1.8. -/
noncomputable def loneExtent : ℝ := (14 + 4) + Real.sqrt (2.5 ^ 2 + 6 ^ 2) + 1.8

/-- The largest extent of the charge badge from the atom center
(`LewisStructure.tsx` lines 209-210, radius 14): badge center at
`(radius - 4, -(radius - 4))`, badge circle radius 6. -/
noncomputable def chargeExtent : ℝ := Real.sqrt ((14 - 4) ^ 2 + (14 - 4) ^ 2) + 6

/-- The maximum decoration radius around an atom center: the atom circle
(radius 14), the lone-pair ring, or the charge badge, whichever reaches
furthest. -/
noncomputable def maxDecorationRadius : ℝ := max (max 14 loneExtent) chargeExtent

/-- The maximum decoration radius stays strictly below the frame padding of 40
(the source comment on line 59 documents the padding as sized for exactly these
decorations). -/
theorem maxDecorationRadius_lt_padding : maxDecorationRadius < PADDING := by
  rw [maxDecorationRadius, PADDING]
  have h1 : Real.sqrt ((2.5 : ℝ) ^ 2 + 6 ^ 2) = 6.5 := by
    rw [show (2.5 : ℝ) ^ 2 + 6 ^ 2 = 6.5 ^ 2 by norm_num, Real.sqrt_sq (by norm_num)]
  have h2 : Real.sqrt (((14 : ℝ) - 4) ^ 2 + (14 - 4) ^ 2) < 15 := by
    rw [show ((14 : ℝ) - 4) ^ 2 + (14 - 4) ^ 2 = 200 by norm_num]
    rw [show (15 : ℝ) = Real.sqrt 225 by
      rw [show (225 : ℝ) = 15 ^ 2 by norm_num, Real.sqrt_sq (by norm_num)]]
    exact Real.sqrt_lt_sqrt (by norm_num) (by norm_num)
  refine max_lt (max_lt (by norm_num) ?_) ?_
  · rw [loneExtent, h1]; norm_num
  · rw [chargeExtent]; linarith

/-- A left fold of `min` never exceeds its seed. -/
theorem foldl_min_le_init (t : List ℝ) : ∀ (a : ℝ), t.foldl min a ≤ a := by
  induction t with
  | nil => intro a; exact le_refl a
  | cons b tl ih =>
    intro a
    calc (b :: tl).foldl min a = tl.foldl min (min a b) := by rw [List.foldl_cons]
    _ ≤ min a b := ih (min a b)
    _ ≤ a := min_le_left a b

/-- A left fold of `min` is at most every member of the list. -/
theorem foldl_min_le_mem (t : List ℝ) : ∀ (a x : ℝ), x ∈ t → t.foldl min a ≤ x := by
  induction t with
  | nil => intro a x hx; cases hx
  | cons b tl ih =>
    intro a x hx
    rw [List.foldl_cons]
    rcases List.mem_cons.1 hx with rfl | hx
    · exact le_trans (foldl_min_le_init tl (min a x)) (min_le_right a x)
    · exact ih (min a b) x hx

/-- The list minimum bounds every member from below (nonempty lists). -/
theorem listMin_le (l : List ℝ) (x : ℝ) (hx : x ∈ l) : listMin l ≤ x := by
  match l with
  | [] => cases hx
  | a :: t =>
    rw [listMin]
    rcases List.mem_cons.1 hx with rfl | hx
    · exact foldl_min_le_init t x
    · exact foldl_min_le_mem t a x hx

/-- A left fold of `max` is at least its seed. -/
theorem init_le_foldl_max (t : List ℝ) : ∀ (a : ℝ), a ≤ t.foldl max a := by
  induction t with
  | nil => intro a; exact le_refl a
  | cons b tl ih =>
    intro a
    calc a ≤ max a b := le_max_left a b
    _ ≤ tl.foldl max (max a b) := ih (max a b)
    _ = (b :: tl).foldl max a := by rw [List.foldl_cons]

/-- A left fold of `max` is at least every member of the list. -/
theorem mem_le_foldl_max (t : List ℝ) : ∀ (a x : ℝ), x ∈ t → x ≤ t.foldl max a := by
  induction t with
  | nil => intro a x hx; cases hx
  | cons b tl ih =>
    intro a x hx
    rw [List.foldl_cons]
    rcases List.mem_cons.1 hx with rfl | hx
    · exact le_trans (le_max_right a x) (init_le_foldl_max tl (max a x))
    · exact ih (max a b) x hx

/-- The list maximum bounds every member from above (nonempty lists). -/
theorem le_listMax (l : List ℝ) (x : ℝ) (hx : x ∈ l) : x ≤ listMax l := by
  match l with
  | [] => cases hx
  | a :: t =>
    rw [listMax]
    rcases List.mem_cons.1 hx with rfl | hx
    · exact init_le_foldl_max t x
    · exact mem_le_foldl_max t a x hx

/-- C5: for every nonempty atom list, the padded view frame strictly contains
every normalized atom center inset by the maximum decoration radius (atom
circle, lone-pair ring, charge badge), so no decoration exceeds the frame. -/
theorem c5_frame_contains_decorations (mol : Molecule) (h : mol.atoms ≠ []) :
    ∀ a ∈ (layout mol).normalizedAtoms,
      (layout mol).frame.x + maxDecorationRadius < a.x ∧
      a.x + maxDecorationRadius < (layout mol).frame.x + (layout mol).frame.w ∧
      (layout mol).frame.y + maxDecorationRadius < a.y ∧
      a.y + maxDecorationRadius < (layout mol).frame.y + (layout mol).frame.h := by
  intro a ha
  have hne : mol.atoms.isEmpty = false := by
    simpa [List.isEmpty_iff] using h
  rw [layout] at ha ⊢
  rw [if_neg (by simp [hne])] at ha ⊢
  simp only [] at ha ⊢
  have hax : a.x ∈ (scaledAtoms mol).map NAtom.x := List.mem_map_of_mem NAtom.x ha
  have hay : a.y ∈ (scaledAtoms mol).map NAtom.y := List.mem_map_of_mem NAtom.y ha
  have h1 := listMin_le _ _ hax
  have h2 := le_listMax _ _ hax
  have h3 := listMin_le _ _ hay
  have h4 := le_listMax _ _ hay
  have hM := maxDecorationRadius_lt_padding
  rw [PADDING] at hM
  have hP : PADDING = (40 : ℝ) := rfl
  refine ⟨by linarith [hP], by linarith [hP], by linarith [hP], by linarith [hP]⟩

/-- A single-atom molecule used as the C5 witness. -/
noncomputable def molW5 : Molecule := ⟨[⟨0, "O", 0, 0, 0, 0, 0, 0, 0⟩], []⟩

/-- Witness for C5 at the single-atom molecule: its normalized atom sits at the
origin, and the frame contains the origin inset by the maximum decoration
radius on all four sides. -/
theorem c5_frame_contains_decorations_witness :
    (layout molW5).frame.x + maxDecorationRadius < 0 ∧
    (0 : ℝ) + maxDecorationRadius < (layout molW5).frame.x + (layout molW5).frame.w ∧
    (layout molW5).frame.y + maxDecorationRadius < 0 ∧
    (0 : ℝ) + maxDecorationRadius < (layout molW5).frame.y + (layout molW5).frame.h := by
  have hmem : (⟨⟨0, "O", 0, 0, 0, 0, 0, 0, 0⟩, 0, 0⟩ : NAtom) ∈
      (layout molW5).normalizedAtoms := by
    simp [layout, molW5, scaledAtoms]
  exact c5_frame_contains_decorations molW5 (by simp [molW5]) _ hmem

/-- Rotation of a 2D point by an angle, the matrix SVG's `rotate(a)` applies
(the source passes the angle in degrees, `(angle * 180) / Math.PI`, denoting the
same rotation modelled here in radians). -/
noncomputable def rot2 (θ : ℝ) (p : ℝ × ℝ) : ℝ × ℝ :=
  (p.1 * Real.cos θ - p.2 * Real.sin θ, p.1 * Real.sin θ + p.2 * Real.cos θ)

/-- The angle of lone-pair marker `i` (`LewisStructure.tsx` line 195):
`(i * 2 * Math.PI) / Math.max(atom.lonePairs, 1) - Math.PI / 2`. -/
noncomputable def lonePairAngle (k i : ℕ) : ℝ :=
  ((i : ℝ) * 2 * Real.pi) / ((max k 1 : ℕ) : ℝ) - Real.pi / 2

/-- One lone-pair marker: its center and its two dots (the `circle` elements at
`cx = -2.5` and `cx = 2.5`, `LewisStructure.tsx` lines 199-200). -/
structure PairMarker where
  center : ℝ × ℝ
  dotA : ℝ × ℝ
  dotB : ℝ × ℝ

/-- The lone-pair markers emitted for one atom (`LewisStructure.tsx` lines
190-205): nothing unless display is on and `lonePairs > 0`; otherwise one marker
per lone pair, each positioned by the transform chain
`translate(0, -(radius+4))` then `rotate(angle) translate(0, -6)`, its two dots
at local `x = ±2.5`. -/
noncomputable def lonePairMarkers (pos : ℝ × ℝ) (radius : ℝ) (k : ℕ)
    (showLP : Bool) : List PairMarker :=
  if showLP ∧ 0 < k then
    (List.range k).map (fun i =>
      let ringC : ℝ × ℝ := (pos.1, pos.2 - (radius + 4))
      let θ := lonePairAngle k i
      ⟨(ringC.1 + (rot2 θ (0, -6)).1, ringC.2 + (rot2 θ (0, -6)).2),
       (ringC.1 + (rot2 θ (-2.5, -6)).1, ringC.2 + (rot2 θ (-2.5, -6)).2),
       (ringC.1 + (rot2 θ (2.5, -6)).1, ringC.2 + (rot2 θ (2.5, -6)).2)⟩)
  else []

/-- Modelled from the spec's lone-pair wording: `k` markers on the radius-6
circle around the ring center above the atom, marker `i` at angle
`2 * pi * i / k` past the starting offset, its two dots placed symmetrically
at `±2.5` along the direction perpendicular to the radial direction. -/
noncomputable def lonePairMarkersSpec (pos : ℝ × ℝ) (radius : ℝ) (k : ℕ) :
    List PairMarker :=
  (List.range k).map (fun (i : ℕ) =>
    let ringC : ℝ × ℝ := (pos.1, pos.2 - (radius + 4))
    let θ := ((i : ℝ) * (2 * Real.pi)) / (k : ℝ) - Real.pi / 2
    let c : ℝ × ℝ := (ringC.1 + (rot2 θ (0, -6)).1, ringC.2 + (rot2 θ (0, -6)).2)
    let perp := rot2 θ (1, 0)
    ⟨c, (c.1 - 2.5 * perp.1, c.2 - 2.5 * perp.2),
        (c.1 + 2.5 * perp.1, c.2 + 2.5 * perp.2)⟩)

/-- With display on and `k > 0`, the emitted markers coincide with the
spec-side marker list (the `max(k,1)` in the code's angle equals `k`, and the
rotated dot offsets decompose as center `± 2.5` along the perpendicular). -/
theorem lonePairMarkers_eq_spec (pos : ℝ × ℝ) (radius : ℝ) (k : ℕ) :
    lonePairMarkers pos radius k true = lonePairMarkersSpec pos radius k := by
  by_cases hk : 0 < k
  · rw [lonePairMarkers, if_pos ⟨rfl, hk⟩, lonePairMarkersSpec]
    refine List.map_congr_left (fun i hi => ?_)
    have hmax : (max k 1 : ℕ) = k := max_eq_left hk
    have hangle : lonePairAngle k i =
        ((i : ℝ) * (2 * Real.pi)) / (k : ℝ) - Real.pi / 2 := by
      rw [lonePairAngle, hmax]
      ring_nf
    simp only [hangle]
    rw [PairMarker.mk.injEq]
    refine ⟨rfl, ?_, ?_⟩ <;>
      · rw [Prod.mk.injEq]
        constructor <;> · rw [rot2, rot2, rot2]; ring
  · have hk0 : k = 0 := Nat.eq_zero_of_not_pos hk
    subst hk0
    rw [lonePairMarkers, lonePairMarkersSpec]
    simp

/-- The first spec-side marker (angle `-π/2`) sits at horizontal offset `-6`
from the ring center, its dots `±2.5` vertically around it. -/
theorem lonePairMarkersSpec_head (pos : ℝ × ℝ) (radius : ℝ) (k : ℕ)
    (hk : 0 < k) :
    (lonePairMarkersSpec pos radius k).get? 0 =
      some ⟨(pos.1 - 6, pos.2 - (radius + 4)),
            (pos.1 - 6, pos.2 - (radius + 4) + 2.5),
            (pos.1 - 6, pos.2 - (radius + 4) - 2.5)⟩ := by
  have hang : ((0 : ℝ) * (2 * Real.pi)) / (k : ℝ) - Real.pi / 2 = -(Real.pi / 2) := by
    ring
  have hrotA : rot2 (-(Real.pi / 2)) ((0 : ℝ), (-6 : ℝ)) = (-6, 0) := by
    rw [rot2, Real.cos_neg, Real.sin_neg, Real.cos_pi_div_two, Real.sin_pi_div_two]
    norm_num
  have hrotB : rot2 (-(Real.pi / 2)) ((1 : ℝ), (0 : ℝ)) = (0, -1) := by
    rw [rot2, Real.cos_neg, Real.sin_neg, Real.cos_pi_div_two, Real.sin_pi_div_two]
    norm_num
  rw [lonePairMarkersSpec, List.get?_map, List.get?_range hk]
  simp only [Option.map_some', Nat.cast_zero]
  rw [hang, hrotA, hrotB]
  simp only [Option.some_inj, PairMarker.mk.injEq, Prod.mk.injEq]
  norm_num
  constructor <;> ring

/-- The number of markers emitted equals the lone-pair count. -/
theorem lonePairMarkers_length (pos : ℝ × ℝ) (radius : ℝ) (k : ℕ) :
    (lonePairMarkers pos radius k true).length = k := by
  by_cases hk : 0 < k
  · rw [lonePairMarkers, if_pos ⟨rfl, hk⟩]
    simp
  · have hk0 : k = 0 := Nat.eq_zero_of_not_pos hk
    subst hk0
    rw [lonePairMarkers]
    simp

/-- C7 amended: with lone-pair display enabled, an atom with `lonePairs = k`
emits no markers for `k = 0` and exactly `k` markers for `k > 0`, distributed
on the fixed circle above the atom with angular spacing `2π/k` from the starting
offset `-π/2`, each marker's two dots symmetric perpendicular to its radial
direction; the starting offset orients the first pair toward the negative-x
direction (to the left of the ring center), not upward. -/
theorem c7_lone_pairs_amended (pos : ℝ × ℝ) (radius : ℝ) (k : ℕ) :
    (lonePairMarkers pos radius k true).length = k ∧
    lonePairMarkers pos radius k true = lonePairMarkersSpec pos radius k ∧
    (0 < k → (lonePairMarkersSpec pos radius k).get? 0 =
      some ⟨(pos.1 - 6, pos.2 - (radius + 4)),
            (pos.1 - 6, pos.2 - (radius + 4) + 2.5),
            (pos.1 - 6, pos.2 - (radius + 4) - 2.5)⟩) :=
  ⟨lonePairMarkers_length pos radius k, lonePairMarkers_eq_spec pos radius k,
    lonePairMarkersSpec_head pos radius k⟩

/-- Witness for the amended C7 at `pos = (0,0)`, `radius = 14`, `k = 2`: two
markers are emitted, the code markers equal the spec markers, and the first
marker sits at `(-6, -18)` — left of the ring center `(0, -18)`. -/
theorem c7_lone_pairs_amended_witness :
    (lonePairMarkers ((0 : ℝ), (0 : ℝ)) 14 2 true).length = 2 ∧
    lonePairMarkers ((0 : ℝ), (0 : ℝ)) 14 2 true = lonePairMarkersSpec (0, 0) 14 2 ∧
    (lonePairMarkersSpec ((0 : ℝ), (0 : ℝ)) 14 2).get? 0 =
      some ⟨((0 : ℝ) - 6, (0 : ℝ) - (14 + 4)),
            ((0 : ℝ) - 6, (0 : ℝ) - (14 + 4) + 2.5),
            ((0 : ℝ) - 6, (0 : ℝ) - (14 + 4) - 2.5)⟩ := by
  have h := c7_lone_pairs_amended ((0 : ℝ), (0 : ℝ)) 14 2
  exact ⟨h.1, h.2.1, h.2.2 (by norm_num)⟩

/-- C7 counterexample: at `pos = (0,0)`, `radius = 14`, `k = 1`, the single
marker's center is `(-6, -18)`, to the left of the ring center `(0, -18)`; an
upward-oriented first pair would sit at `(0, -24)`.  The `-π/2` starting offset
composed with the `translate(0, -6)` places the first pair leftward, refuting
"the first pair is oriented upward". -/
theorem c7_lone_pairs_counterexample :
    (lonePairMarkers ((0 : ℝ), (0 : ℝ)) 14 1 true).map PairMarker.center =
      [((-6 : ℝ), (-18 : ℝ))] ∧
    ((-6 : ℝ), (-18 : ℝ)) ≠ ((0 : ℝ), (-24 : ℝ)) := by
  refine ⟨?_, by norm_num [Prod.ext_iff]⟩
  rw [lonePairMarkers_eq_spec]
  have h0 := lonePairMarkersSpec_head ((0 : ℝ), (0 : ℝ)) 14 1 (by norm_num)
  have hlen : (lonePairMarkersSpec ((0 : ℝ), (0 : ℝ)) 14 1).length = 1 := by
    rw [← lonePairMarkers_eq_spec, lonePairMarkers_length]
  rcases hspec : lonePairMarkersSpec ((0 : ℝ), (0 : ℝ)) 14 1 with _ | ⟨m, tl⟩
  · rw [hspec] at hlen
    simp at hlen
  · rw [hspec] at h0 hlen
    simp only [List.get?_cons_zero, Option.some_inj] at h0
    have htl : tl = [] := by
      simp only [List.length_cons, Nat.add_left_eq_self] at hlen
      exact List.length_eq_zero.mp hlen
    subst htl
    rw [h0]
    simp only [List.map_cons, List.map_nil]
    norm_num

/-- A 3D vector (`THREE.Vector3`). -/
structure Vec3 where
  x : ℝ
  y : ℝ
  z : ℝ

/-- `THREE.Vector3.dot`. -/
def dot3 (a b : Vec3) : ℝ := a.x * b.x + a.y * b.y + a.z * b.z

/-- `THREE.Vector3.length`: the Euclidean norm. -/
noncomputable def norm3 (v : Vec3) : ℝ := Real.sqrt (dot3 v v)

/-- `THREE.Vector3.normalize`: `divideScalar(length || 1)` — the zero vector is
divided by 1 and stays the zero vector (no NaN). -/
noncomputable def normalize3 (v : Vec3) : Vec3 :=
  if norm3 v = 0 then v else ⟨v.x / norm3 v, v.y / norm3 v, v.z / norm3 v⟩

/-- Componentwise difference `e - s` (`THREE.Vector3.subVectors`). -/
def v3sub (a b : Vec3) : Vec3 := ⟨a.x - b.x, a.y - b.y, a.z - b.z⟩

/-- A quaternion (`THREE.Quaternion`), components `(x, y, z, w)`. -/
structure Quat where
  x : ℝ
  y : ℝ
  z : ℝ
  w : ℝ

/-- `THREE.Quaternion.length`. -/
noncomputable def qlength (q : Quat) : ℝ :=
  Real.sqrt (q.x ^ 2 + q.y ^ 2 + q.z ^ 2 + q.w ^ 2)

/-- `THREE.Quaternion.normalize`: the zero quaternion becomes the identity,
anything else is divided by its length. -/
noncomputable def qnormalize (q : Quat) : Quat :=
  if qlength q = 0 then ⟨0, 0, 0, 1⟩
  else ⟨q.x / qlength q, q.y / qlength q, q.z / qlength q, q.w / qlength q⟩

/-- `Number.EPSILON`, the threshold `THREE.Quaternion.setFromUnitVectors` uses
to detect (nearly) opposite input vectors: `2^-52`. -/
noncomputable def NumberEpsilon : ℝ := 1 / 4503599627370496

/-- `THREE.Quaternion.setFromUnitVectors vFrom vTo`: when
`r = vFrom·vTo + 1` falls below `Number.EPSILON` the inputs are treated as
opposite and a 180° rotation about an axis perpendicular to `vFrom` is chosen
(branching on `|vFrom.x| > |vFrom.z|`); otherwise the quaternion is built from
the cross product and `r`; either way the result is normalized. -/
noncomputable def setFromUnitVectors (vFrom vTo : Vec3) : Quat :=
  let r := dot3 vFrom vTo + 1
  if r < NumberEpsilon then
    (if |vFrom.z| < |vFrom.x| then qnormalize ⟨-vFrom.y, vFrom.x, 0, 0⟩
     else qnormalize ⟨0, -vFrom.z, vFrom.y, 0⟩)
  else
    qnormalize ⟨vFrom.y * vTo.z - vFrom.z * vTo.y,
                vFrom.z * vTo.x - vFrom.x * vTo.z,
                vFrom.x * vTo.y - vFrom.y * vTo.x, r⟩

/-- `THREE.Vector3.applyQuaternion` (`t = 2 * cross(q.xyz, v)`, result
`v + q.w * t + cross(q.xyz, t)`). -/
noncomputable def applyQuaternion (q : Quat) (v : Vec3) : Vec3 :=
  let tx := 2 * (q.y * v.z - q.z * v.y)
  let ty := 2 * (q.z * v.x - q.x * v.z)
  let tz := 2 * (q.x * v.y - q.y * v.x)
  ⟨v.x + q.w * tx + (q.y * tz - q.z * ty),
   v.y + q.w * ty + (q.z * tx - q.x * tz),
   v.z + q.w * tz + (q.x * ty - q.y * tx)⟩

/-- The canonical cylinder axis `up = (0, 1, 0)` of `Molecule3D.tsx` line 61. -/
def up3 : Vec3 := ⟨0, 1, 0⟩

/-- One cylinder of a bond's 3D geometry: its center position, orientation
quaternion and length (the fixed radius 0.08 is common to all cylinders). -/
structure Cylinder where
  position : Vec3
  quaternion : Quat
  length : ℝ

/-- `BondMesh` of `Molecule3D.tsx` lines 55-113: midpoint, difference, length,
orientation from `setFromUnitVectors(up, diff.normalize())`; order 1 emits one
cylinder at the midpoint, order 2 two cylinders offset `±0.15` along
`localX = (1,0,0).applyQuaternion(q)`, and any other order three cylinders
(midpoint plus the two offsets).  All cylinders share the quaternion and the
length. -/
noncomputable def bondMesh (s e : Vec3) (order : ℤ) : List Cylinder :=
  let mid : Vec3 := ⟨(s.x + e.x) * 0.5, (s.y + e.y) * 0.5, (s.z + e.z) * 0.5⟩
  let diff := v3sub e s
  let len := norm3 diff
  let q := setFromUnitVectors up3 (normalize3 diff)
  if order = 1 then [⟨mid, q, len⟩]
  else if order = 2 then
    let lx := applyQuaternion q ⟨1, 0, 0⟩
    [⟨⟨mid.x + lx.x * 0.15, mid.y + lx.y * 0.15, mid.z + lx.z * 0.15⟩, q, len⟩,
     ⟨⟨mid.x + lx.x * (-0.15), mid.y + lx.y * (-0.15), mid.z + lx.z * (-0.15)⟩, q, len⟩]
  else
    let lx := applyQuaternion q ⟨1, 0, 0⟩
    [⟨mid, q, len⟩,
     ⟨⟨mid.x + lx.x * 0.15, mid.y + lx.y * 0.15, mid.z + lx.z * 0.15⟩, q, len⟩,
     ⟨⟨mid.x + lx.x * (-0.15), mid.y + lx.y * (-0.15), mid.z + lx.z * (-0.15)⟩, q, len⟩]

/-- C10: for any bond order outside `{1,2,3}` the two engines diverge: the 2D
renderer emits no segments (its order dispatch falls through to `return null`),
while the 3D engine's trailing `else` branch emits three cylinders — identical
to a triple bond. -/
theorem c10_out_of_range_order (s2 e2 : ℝ × ℝ) (s3 e3 : Vec3) (order : ℤ)
    (h1 : order ≠ 1) (h2 : order ≠ 2) (h3 : order ≠ 3) :
    segments2D s2 e2 order = [] ∧
    bondMesh s3 e3 order = bondMesh s3 e3 3 ∧
    (bondMesh s3 e3 order).length = 3 := by
  refine ⟨segments2D_other s2 e2 order h1 h2 h3, ?_, ?_⟩
  · rw [bondMesh, bondMesh]
    simp only [if_neg h1, if_neg h2,
      if_neg (by decide : ¬ (3 : ℤ) = 1), if_neg (by decide : ¬ (3 : ℤ) = 2)]
  · rw [bondMesh]
    simp only [if_neg h1, if_neg h2]
    rfl

/-- Witness for C10 at order 4: no 2D segments, and the 3D geometry of the bond
from the origin to `(0,3,0)` coincides with the triple-bond geometry, three
cylinders. -/
theorem c10_out_of_range_order_witness :
    segments2D ((0 : ℝ), (0 : ℝ)) ((60 : ℝ), (0 : ℝ)) 4 = [] ∧
    bondMesh ⟨0, 0, 0⟩ ⟨0, 3, 0⟩ 4 = bondMesh ⟨0, 0, 0⟩ ⟨0, 3, 0⟩ 3 ∧
    (bondMesh ⟨0, 0, 0⟩ ⟨0, 3, 0⟩ 4).length = 3 :=
  c10_out_of_range_order (0, 0) (60, 0) ⟨0, 0, 0⟩ ⟨0, 3, 0⟩ 4
    (by decide) (by decide) (by decide)

/-- A point is at distance zero from itself. -/
theorem dist2_self (p : ℝ × ℝ) : dist2 p p = 0 := by
  rw [dist2]
  simp

/-- C6: a bond whose two endpoints coincide produces no 2D segment (its length
0 falls under the `len < 1` guard before any division), and the 3D engine —
whose `normalize` guards the zero vector with `length || 1` and whose
`setFromUnitVectors` then receives the zero target, producing the identity
quaternion — emits only degenerate cylinders: zero length, identity (finite)
orientation, centered on the common point or offset `±0.15` from it along the
x-axis.  Every output coordinate is a well-defined real; no division by zero is
reached, so no NaN or Infinity can arise. -/
theorem c6_zero_length_bond_safe (p2 : ℝ × ℝ) (p3 : Vec3) (order : ℤ) :
    segments2D p2 p2 order = [] ∧
    (∀ c ∈ bondMesh p3 p3 order, c.length = 0 ∧ c.quaternion = ⟨0, 0, 0, 1⟩ ∧
      (c.position = p3 ∨ c.position = ⟨p3.x + 0.15, p3.y, p3.z⟩ ∨
        c.position = ⟨p3.x - 0.15, p3.y, p3.z⟩)) := by
  refine ⟨segments2D_of_lt _ _ _ (by rw [dist2_self]; norm_num), ?_⟩
  have hdiff : v3sub p3 p3 = ⟨0, 0, 0⟩ := by
    rw [v3sub, Vec3.mk.injEq]
    norm_num
  have hnorm : norm3 ⟨0, 0, 0⟩ = 0 := by
    rw [norm3, dot3]
    norm_num
  have hnormalize : normalize3 (⟨0, 0, 0⟩ : Vec3) = ⟨0, 0, 0⟩ := by
    rw [normalize3, if_pos hnorm]
  have hql : qlength ⟨0, 0, 0, 1⟩ = 1 := by
    rw [qlength]
    norm_num
  have hq : setFromUnitVectors up3 ⟨0, 0, 0⟩ = ⟨0, 0, 0, 1⟩ := by
    rw [setFromUnitVectors]
    simp only [up3, dot3]
    rw [if_neg (by rw [NumberEpsilon]; norm_num)]
    rw [show (⟨(1 : ℝ) * 0 - 0 * 0, 0 * 0 - 0 * 0, 0 * 0 - 1 * 0,
        0 * 0 + 1 * 0 + 0 * 0 + 1⟩ : Quat) = ⟨0, 0, 0, 1⟩ by
      rw [Quat.mk.injEq]; norm_num]
    rw [qnormalize, if_neg (by rw [hql]; norm_num), hql, Quat.mk.injEq]
    norm_num
  have hlx : applyQuaternion ⟨0, 0, 0, 1⟩ ⟨1, 0, 0⟩ = ⟨1, 0, 0⟩ := by
    rw [applyQuaternion]
    simp only []
    rw [Vec3.mk.injEq]
    norm_num
  intro c hc
  rw [bondMesh] at hc
  simp only [hdiff, hnormalize, hnorm, hq, hlx] at hc
  have hmid : (⟨(p3.x + p3.x) * 0.5, (p3.y + p3.y) * 0.5, (p3.z + p3.z) * 0.5⟩ : Vec3)
      = p3 := by
    rw [Vec3.mk.injEq]
    refine ⟨by ring, by ring, by ring⟩
  rw [hmid] at hc
  split at hc
  · rcases List.mem_singleton.1 hc with rfl
    exact ⟨rfl, rfl, Or.inl rfl⟩
  · split at hc
    · rcases List.mem_cons.1 hc with rfl | hc2
      · refine ⟨rfl, rfl, Or.inr (Or.inl ?_)⟩
        rw [Vec3.mk.injEq]
        refine ⟨by ring, by ring, by ring⟩
      · rcases List.mem_singleton.1 hc2 with rfl
        refine ⟨rfl, rfl, Or.inr (Or.inr ?_)⟩
        rw [Vec3.mk.injEq]
        refine ⟨by ring, by ring, by ring⟩
    · rcases List.mem_cons.1 hc with rfl | hc2
      · exact ⟨rfl, rfl, Or.inl rfl⟩
      · rcases List.mem_cons.1 hc2 with rfl | hc3
        · refine ⟨rfl, rfl, Or.inr (Or.inl ?_)⟩
          rw [Vec3.mk.injEq]
          refine ⟨by ring, by ring, by ring⟩
        · rcases List.mem_singleton.1 hc3 with rfl
          refine ⟨rfl, rfl, Or.inr (Or.inr ?_)⟩
          rw [Vec3.mk.injEq]
          refine ⟨by ring, by ring, by ring⟩

/-- Witness for C6 at the origin with order 2: the two emitted cylinders are the
degenerate offsets `(±0.15, 0, 0)` with zero length and identity orientation. -/
theorem c6_zero_length_bond_safe_witness :
    segments2D ((0 : ℝ), (0 : ℝ)) ((0 : ℝ), (0 : ℝ)) 2 = [] ∧
    ∀ c ∈ bondMesh ⟨0, 0, 0⟩ ⟨0, 0, 0⟩ 2,
      c.length = 0 ∧ c.quaternion = ⟨0, 0, 0, 1⟩ ∧
      (c.position = ⟨0, 0, 0⟩ ∨ c.position = ⟨(0 : ℝ) + 0.15, 0, 0⟩ ∨
        c.position = ⟨(0 : ℝ) - 0.15, 0, 0⟩) :=
  c6_zero_length_bond_safe (0, 0) ⟨0, 0, 0⟩ 2

/-- The bond midpoint (`mid` of `Molecule3D.tsx` line 56). -/
noncomputable def midOf (s e : Vec3) : Vec3 :=
  ⟨(s.x + e.x) * 0.5, (s.y + e.y) * 0.5, (s.z + e.z) * 0.5⟩

/-- The shared orientation quaternion of a bond's cylinders
(`Molecule3D.tsx` line 62). -/
noncomputable def bondQuat (s e : Vec3) : Quat :=
  setFromUnitVectors up3 (normalize3 (v3sub e s))

/-- The lateral offset axis `localX` (`Molecule3D.tsx` lines 76 and 92). -/
noncomputable def localXOf (s e : Vec3) : Vec3 :=
  applyQuaternion (bondQuat s e) ⟨1, 0, 0⟩

/-- A cylinder center displaced `t` along the lateral axis from the midpoint
(`mid.clone().add(localX.clone().multiplyScalar(t))`). -/
noncomputable def offsetPos (s e : Vec3) (t : ℝ) : Vec3 :=
  ⟨(midOf s e).x + (localXOf s e).x * t,
   (midOf s e).y + (localXOf s e).y * t,
   (midOf s e).z + (localXOf s e).z * t⟩

/-- Normal form of the order-1 bond mesh. -/
theorem bondMesh_one (s e : Vec3) :
    bondMesh s e 1 = [⟨midOf s e, bondQuat s e, norm3 (v3sub e s)⟩] := by
  rw [bondMesh, midOf, bondQuat]
  norm_num

/-- Normal form of the order-2 bond mesh. -/
theorem bondMesh_two (s e : Vec3) :
    bondMesh s e 2 =
      [⟨offsetPos s e 0.15, bondQuat s e, norm3 (v3sub e s)⟩,
       ⟨offsetPos s e (-0.15), bondQuat s e, norm3 (v3sub e s)⟩] := by
  simp only [bondMesh, offsetPos, midOf, localXOf, bondQuat]
  norm_num

/-- Normal form of the bond mesh for every order other than 1 and 2 (the
trailing `else`, covering order 3). -/
theorem bondMesh_other (s e : Vec3) (order : ℤ) (h1 : order ≠ 1) (h2 : order ≠ 2) :
    bondMesh s e order =
      [⟨midOf s e, bondQuat s e, norm3 (v3sub e s)⟩,
       ⟨offsetPos s e 0.15, bondQuat s e, norm3 (v3sub e s)⟩,
       ⟨offsetPos s e (-0.15), bondQuat s e, norm3 (v3sub e s)⟩] := by
  simp only [bondMesh, offsetPos, midOf, localXOf, bondQuat, if_neg h1, if_neg h2]

/-- A vector whose self-dot vanishes is the zero vector. -/
theorem eq_zero_of_dot3_self (v : Vec3) (h : dot3 v v = 0) : v = ⟨0, 0, 0⟩ := by
  rcases v with ⟨x, y, z⟩
  rw [dot3] at h
  simp only [] at h
  have hx : x * x = 0 := by nlinarith [mul_self_nonneg x, mul_self_nonneg y, mul_self_nonneg z]
  have hy : y * y = 0 := by nlinarith [mul_self_nonneg x, mul_self_nonneg y, mul_self_nonneg z]
  have hz : z * z = 0 := by nlinarith [mul_self_nonneg x, mul_self_nonneg y, mul_self_nonneg z]
  rw [Vec3.mk.injEq]
  exact ⟨mul_self_eq_zero.1 hx, mul_self_eq_zero.1 hy, mul_self_eq_zero.1 hz⟩

/-- The self-dot is nonnegative. -/
theorem dot3_self_nonneg (v : Vec3) : 0 ≤ dot3 v v := by
  rw [dot3]
  nlinarith [mul_self_nonneg v.x, mul_self_nonneg v.y, mul_self_nonneg v.z]

/-- A nonzero vector has positive self-dot. -/
theorem dot3_self_pos (v : Vec3) (h : v ≠ ⟨0, 0, 0⟩) : 0 < dot3 v v := by
  rcases lt_or_eq_of_le (dot3_self_nonneg v) with hlt | heq
  · exact hlt
  · exact absurd (eq_zero_of_dot3_self v heq.symm) h

/-- The difference of distinct points is nonzero. -/
theorem v3sub_ne_zero (s e : Vec3) (h : s ≠ e) : v3sub e s ≠ ⟨0, 0, 0⟩ := by
  intro hc
  apply h
  rcases s with ⟨sx, sy, sz⟩
  rcases e with ⟨ex, ey, ez⟩
  rw [v3sub, Vec3.mk.injEq] at hc
  rw [Vec3.mk.injEq]
  exact ⟨(sub_eq_zero.1 hc.1).symm, (sub_eq_zero.1 hc.2.1).symm, (sub_eq_zero.1 hc.2.2).symm⟩

/-- Normalizing a nonzero vector produces a unit vector. -/
theorem dot3_normalize3_self (v : Vec3) (h : v ≠ ⟨0, 0, 0⟩) :
    dot3 (normalize3 v) (normalize3 v) = 1 := by
  have hpos : 0 < dot3 v v := dot3_self_pos v h
  have hnpos : 0 < norm3 v := by
    rw [norm3]
    exact Real.sqrt_pos.2 hpos
  have hn2 : norm3 v ^ 2 = dot3 v v := by
    rw [norm3]
    exact Real.sq_sqrt (le_of_lt hpos)
  rw [normalize3, if_neg (ne_of_gt hnpos)]
  rw [dot3] at hpos hn2 ⊢
  simp only []
  field_simp
  linear_combination (-1 : ℝ) * hn2

/-- The dot product of the canonical up axis with any vector picks its
y-component. -/
theorem dot3_up3 (d : Vec3) : dot3 up3 d = d.y := by
  rw [dot3, up3]
  ring

/-- In the generic branch (`r` at least `Number.EPSILON`),
`setFromUnitVectors up d` normalizes the quaternion built from
`cross(up, d) = (d.z, 0, -d.x)` and `w = d.y + 1`. -/
theorem setFrom_up_generic (d : Vec3) (h : ¬ (d.y + 1 < NumberEpsilon)) :
    setFromUnitVectors up3 d = qnormalize ⟨d.z, 0, -d.x, d.y + 1⟩ := by
  rw [setFromUnitVectors]
  simp only [dot3_up3]
  rw [if_neg h]
  congr 1
  rw [up3, Quat.mk.injEq]
  refine ⟨by ring, by ring, by ring, rfl⟩

/-- In the near-antiparallel branch (`r` below `Number.EPSILON`),
`setFromUnitVectors up d` is the 180° rotation about the z-axis, whatever `d`
actually is. -/
theorem setFrom_up_near_antiparallel (d : Vec3) (h : d.y + 1 < NumberEpsilon) :
    setFromUnitVectors up3 d = ⟨0, 0, 1, 0⟩ := by
  rw [setFromUnitVectors]
  simp only [dot3_up3]
  rw [if_pos h]
  rw [if_neg (show ¬ |up3.z| < |up3.x| by rw [up3]; simp)]
  simp only [up3]
  have hql : qlength ⟨(0 : ℝ), -(0 : ℝ), (1 : ℝ), (0 : ℝ)⟩ = 1 := by
    rw [qlength]
    norm_num
  rw [qnormalize, if_neg (by rw [hql]; norm_num), hql, Quat.mk.injEq]
  norm_num

/-- The 180° rotation about z maps the up axis to its negation. -/
theorem applyQ_z180_up : applyQuaternion ⟨0, 0, 1, 0⟩ up3 = ⟨0, -1, 0⟩ := by
  rw [applyQuaternion, up3]
  simp only []
  rw [Vec3.mk.injEq]
  norm_num

/-- The 180° rotation about z maps `(1,0,0)` to `(-1,0,0)`. -/
theorem applyQ_z180_e1 : applyQuaternion ⟨0, 0, 1, 0⟩ ⟨1, 0, 0⟩ = ⟨-1, 0, 0⟩ := by
  rw [applyQuaternion]
  simp only []
  rw [Vec3.mk.injEq]
  norm_num

/-- The generic-branch quaternion really rotates the up axis onto the unit
direction `d`, and the rotated x-axis is perpendicular to `d`: the algebraic
heart of the bond-orientation derivation. -/
theorem applyQuat_generic_rotates (d : Vec3) (hu : dot3 d d = 1)
    (hpos : 0 < d.y + 1) :
    applyQuaternion (qnormalize ⟨d.z, 0, -d.x, d.y + 1⟩) up3 = d ∧
    dot3 (applyQuaternion (qnormalize ⟨d.z, 0, -d.x, d.y + 1⟩) ⟨1, 0, 0⟩) d = 0 := by
  rw [dot3] at hu
  have hL2 : qlength ⟨d.z, 0, -d.x, d.y + 1⟩ ^ 2 = 2 * (d.y + 1) := by
    rw [qlength, Real.sq_sqrt (by positivity)]
    linear_combination hu
  have hLpos : 0 < qlength ⟨d.z, 0, -d.x, d.y + 1⟩ := by
    rw [qlength]
    apply Real.sqrt_pos.2
    have h1 : 0 < (d.y + 1) ^ 2 := pow_pos hpos 2
    simp only []
    nlinarith [sq_nonneg d.z, sq_nonneg d.x]
  have hLne : qlength ⟨d.z, 0, -d.x, d.y + 1⟩ ≠ 0 := ne_of_gt hLpos
  have hqn : qnormalize ⟨d.z, 0, -d.x, d.y + 1⟩ =
      ⟨d.z / qlength ⟨d.z, 0, -d.x, d.y + 1⟩,
       0 / qlength ⟨d.z, 0, -d.x, d.y + 1⟩,
       -d.x / qlength ⟨d.z, 0, -d.x, d.y + 1⟩,
       (d.y + 1) / qlength ⟨d.z, 0, -d.x, d.y + 1⟩⟩ := by
    rw [qnormalize, if_neg hLne]
  constructor
  · rw [hqn, applyQuaternion, up3]
    simp only []
    rcases d with ⟨dx, dy, dz⟩
    simp only [] at hu hL2 hLne hpos ⊢
    have hLL : qlength ⟨dz, 0, -dx, dy + 1⟩ * qlength ⟨dz, 0, -dx, dy + 1⟩ =
        2 * (dy + 1) := by
      rw [← pow_two]
      exact hL2
    rw [Vec3.mk.injEq]
    refine ⟨?_, ?_, ?_⟩
    · field_simp
      rw [hLL]
      ring
    · field_simp
      rw [hLL]
      linear_combination (-4 * (dy + 1)) * hu
    · field_simp
      rw [hLL]
      ring
  · rw [hqn, applyQuaternion, dot3]
    simp only []
    rcases d with ⟨dx, dy, dz⟩
    simp only [] at hu hL2 hLne hpos ⊢
    have hLL : qlength ⟨dz, 0, -dx, dy + 1⟩ * qlength ⟨dz, 0, -dx, dy + 1⟩ =
        2 * (dy + 1) := by
      rw [← pow_two]
      exact hL2
    field_simp
    rw [hLL]
    linear_combination (-2 * dx) * hu

/-- C4 amended: for a 3D bond of order `o ∈ {1,2,3}` with distinct endpoints
whose normalized direction `d` is not in three.js's near-antiparallel guard
band — that is, `up·d + 1` is at least `Number.EPSILON`, or `d` is exactly
`-up` — the derivation emits exactly `o` cylinders, all sharing the quaternion
that rotates the canonical up axis onto `d` and the length equal to the
endpoint distance; order 1 places the single cylinder at the midpoint, order 2
two cylinders at `±0.15` along the lateral axis from the midpoint, order 3 the
midpoint cylinder plus both offsets; and the lateral axis is perpendicular to
`d`, so the cylinder set is symmetric about the bond's midpoint and axis. -/
theorem c4_bond_cylinders_amended (s e : Vec3) (order : ℤ)
    (ho : order = 1 ∨ order = 2 ∨ order = 3) (hne : s ≠ e)
    (hgen : ¬ (dot3 up3 (normalize3 (v3sub e s)) + 1 < NumberEpsilon) ∨
      normalize3 (v3sub e s) = ⟨0, -1, 0⟩) :
    ((bondMesh s e order).length : ℤ) = order ∧
    (∀ c ∈ bondMesh s e order,
      c.quaternion = bondQuat s e ∧ c.length = norm3 (v3sub e s)) ∧
    applyQuaternion (bondQuat s e) up3 = normalize3 (v3sub e s) ∧
    dot3 (localXOf s e) (normalize3 (v3sub e s)) = 0 ∧
    (order = 1 → (bondMesh s e order).map Cylinder.position = [midOf s e]) ∧
    (order = 2 → (bondMesh s e order).map Cylinder.position =
      [offsetPos s e 0.15, offsetPos s e (-0.15)]) ∧
    (order = 3 → (bondMesh s e order).map Cylinder.position =
      [midOf s e, offsetPos s e 0.15, offsetPos s e (-0.15)]) := by
  have hd0 : v3sub e s ≠ ⟨0, 0, 0⟩ := v3sub_ne_zero s e hne
  have hu : dot3 (normalize3 (v3sub e s)) (normalize3 (v3sub e s)) = 1 :=
    dot3_normalize3_self _ hd0
  have horient : applyQuaternion (bondQuat s e) up3 = normalize3 (v3sub e s) ∧
      dot3 (localXOf s e) (normalize3 (v3sub e s)) = 0 := by
    rcases hgen with hgen | hgen
    · rw [dot3_up3] at hgen
      have hε : (0 : ℝ) < NumberEpsilon := by
        rw [NumberEpsilon]
        norm_num
      have hpos : 0 < (normalize3 (v3sub e s)).y + 1 := by
        push_neg at hgen
        linarith
      rw [localXOf, bondQuat, setFrom_up_generic _ hgen]
      exact applyQuat_generic_rotates _ hu hpos
    · have hsmall : (normalize3 (v3sub e s)).y + 1 < NumberEpsilon := by
        rw [hgen]
        simp only []
        rw [NumberEpsilon]
        norm_num
      rw [localXOf, bondQuat, setFrom_up_near_antiparallel _ hsmall, hgen]
      refine ⟨applyQ_z180_up, ?_⟩
      rw [applyQ_z180_e1, dot3]
      norm_num
  rcases ho with rfl | rfl | rfl
  · rw [bondMesh_one]
    refine ⟨by simp, ?_, horient.1, horient.2, fun _ => by simp, ?_, ?_⟩
    · intro c hc
      rcases List.mem_singleton.1 hc with rfl
      exact ⟨rfl, rfl⟩
    · intro hc
      exact absurd hc (by decide)
    · intro hc
      exact absurd hc (by decide)
  · rw [bondMesh_two]
    refine ⟨by simp, ?_, horient.1, horient.2, ?_, fun _ => by simp, ?_⟩
    · intro c hc
      rcases List.mem_cons.1 hc with rfl | hc2
      · exact ⟨rfl, rfl⟩
      · rcases List.mem_singleton.1 hc2 with rfl
        exact ⟨rfl, rfl⟩
    · intro hc
      exact absurd hc (by decide)
    · intro hc
      exact absurd hc (by decide)
  · rw [bondMesh_other s e 3 (by decide) (by decide)]
    refine ⟨by simp, ?_, horient.1, horient.2, ?_, ?_, fun _ => by simp⟩
    · intro c hc
      rcases List.mem_cons.1 hc with rfl | hc2
      · exact ⟨rfl, rfl⟩
      · rcases List.mem_cons.1 hc2 with rfl | hc3
        · exact ⟨rfl, rfl⟩
        · rcases List.mem_singleton.1 hc3 with rfl
          exact ⟨rfl, rfl⟩
    · intro hc
      exact absurd hc (by decide)
    · intro hc
      exact absurd hc (by decide)

/-- Witness for the amended C4 at the order-2 bond from the origin to
`(0,3,0)`: the direction `(0,1,0)` is generic (`up·d + 1 = 2`), so the theorem
instantiates — two cylinders sharing the orientation rotating up onto the
direction and length 3, centered `±0.15` along the perpendicular lateral
axis. -/
theorem c4_bond_cylinders_amended_witness :
    ((bondMesh ⟨0, 0, 0⟩ ⟨0, 3, 0⟩ 2).length : ℤ) = 2 ∧
    (∀ c ∈ bondMesh ⟨0, 0, 0⟩ ⟨0, 3, 0⟩ 2,
      c.quaternion = bondQuat ⟨0, 0, 0⟩ ⟨0, 3, 0⟩ ∧
      c.length = norm3 (v3sub ⟨0, 3, 0⟩ ⟨0, 0, 0⟩)) ∧
    applyQuaternion (bondQuat ⟨0, 0, 0⟩ ⟨0, 3, 0⟩) up3 =
      normalize3 (v3sub ⟨0, 3, 0⟩ ⟨0, 0, 0⟩) ∧
    dot3 (localXOf ⟨0, 0, 0⟩ ⟨0, 3, 0⟩) (normalize3 (v3sub ⟨0, 3, 0⟩ ⟨0, 0, 0⟩)) = 0 ∧
    ((2 : ℤ) = 1 → (bondMesh ⟨0, 0, 0⟩ ⟨0, 3, 0⟩ 2).map Cylinder.position =
      [midOf ⟨0, 0, 0⟩ ⟨0, 3, 0⟩]) ∧
    ((2 : ℤ) = 2 → (bondMesh ⟨0, 0, 0⟩ ⟨0, 3, 0⟩ 2).map Cylinder.position =
      [offsetPos ⟨0, 0, 0⟩ ⟨0, 3, 0⟩ 0.15, offsetPos ⟨0, 0, 0⟩ ⟨0, 3, 0⟩ (-0.15)]) ∧
    ((2 : ℤ) = 3 → (bondMesh ⟨0, 0, 0⟩ ⟨0, 3, 0⟩ 2).map Cylinder.position =
      [midOf ⟨0, 0, 0⟩ ⟨0, 3, 0⟩, offsetPos ⟨0, 0, 0⟩ ⟨0, 3, 0⟩ 0.15,
        offsetPos ⟨0, 0, 0⟩ ⟨0, 3, 0⟩ (-0.15)]) := by
  have hdiff : v3sub ⟨(0 : ℝ), 3, 0⟩ ⟨0, 0, 0⟩ = ⟨(0 : ℝ), 3, 0⟩ := by
    rw [v3sub, Vec3.mk.injEq]
    norm_num
  have hdot : dot3 ⟨(0 : ℝ), 3, 0⟩ ⟨(0 : ℝ), 3, 0⟩ = 9 := by
    rw [dot3]
    norm_num
  have hn : norm3 ⟨(0 : ℝ), 3, 0⟩ = 3 := by
    rw [norm3, hdot, show (9 : ℝ) = 3 ^ 2 by norm_num, Real.sqrt_sq (by norm_num)]
  have hnz : normalize3 ⟨(0 : ℝ), 3, 0⟩ = ⟨0, 1, 0⟩ := by
    rw [normalize3, if_neg (by rw [hn]; norm_num), hn, Vec3.mk.injEq]
    norm_num
  refine c4_bond_cylinders_amended ⟨0, 0, 0⟩ ⟨0, 3, 0⟩ 2 (by norm_num) ?_ ?_
  · intro h
    have h2 := congrArg Vec3.y h
    simp only [] at h2
    norm_num at h2
  · refine Or.inl ?_
    rw [hdiff, hnz, dot3_up3]
    simp only []
    rw [NumberEpsilon]
    norm_num

/-- C4 counterexample: for the bond from the origin to
`(2^28, -(2^54 - 1), 0)` — whose unit direction is a rational point on the
sphere nearly antiparallel to the up axis, with `up·d + 1 = 2/(2^54+1)` just
below `Number.EPSILON = 2^-52` — the shared cylinder orientation is the fixed
180° z-rotation `(0,0,1,0)`, which sends the up axis to `(0,-1,0)`, not to the
bond direction: the claim's parenthetical "the rotation taking the canonical up
axis to the normalized bond direction" fails on this input (and with it exact
axis-symmetry of the offsets). -/
theorem c4_bond_cylinders_counterexample :
    (⟨0, 0, 0⟩ : Vec3) ≠ ⟨(2 : ℝ) ^ 28, -((2 : ℝ) ^ 54 - 1), 0⟩ ∧
    (bondMesh ⟨0, 0, 0⟩ ⟨(2 : ℝ) ^ 28, -((2 : ℝ) ^ 54 - 1), 0⟩ 1).map
      Cylinder.quaternion = [bondQuat ⟨0, 0, 0⟩ ⟨(2 : ℝ) ^ 28, -((2 : ℝ) ^ 54 - 1), 0⟩] ∧
    applyQuaternion (bondQuat ⟨0, 0, 0⟩ ⟨(2 : ℝ) ^ 28, -((2 : ℝ) ^ 54 - 1), 0⟩) up3 ≠
      normalize3 (v3sub ⟨(2 : ℝ) ^ 28, -((2 : ℝ) ^ 54 - 1), 0⟩ ⟨0, 0, 0⟩) := by
  have hdiff : v3sub ⟨(2 : ℝ) ^ 28, -((2 : ℝ) ^ 54 - 1), 0⟩ ⟨0, 0, 0⟩ =
      ⟨(2 : ℝ) ^ 28, -((2 : ℝ) ^ 54 - 1), 0⟩ := by
    rw [v3sub, Vec3.mk.injEq]
    norm_num
  have hdot : dot3 ⟨(2 : ℝ) ^ 28, -((2 : ℝ) ^ 54 - 1), 0⟩
      ⟨(2 : ℝ) ^ 28, -((2 : ℝ) ^ 54 - 1), 0⟩ = ((2 : ℝ) ^ 54 + 1) ^ 2 := by
    rw [dot3]
    norm_num
  have hn : norm3 ⟨(2 : ℝ) ^ 28, -((2 : ℝ) ^ 54 - 1), 0⟩ = (2 : ℝ) ^ 54 + 1 := by
    rw [norm3, hdot, Real.sqrt_sq (by positivity)]
  have hnz : normalize3 ⟨(2 : ℝ) ^ 28, -((2 : ℝ) ^ 54 - 1), 0⟩ =
      ⟨(2 : ℝ) ^ 28 / ((2 : ℝ) ^ 54 + 1),
       -((2 : ℝ) ^ 54 - 1) / ((2 : ℝ) ^ 54 + 1), 0⟩ := by
    rw [normalize3, if_neg (by rw [hn]; positivity), hn, Vec3.mk.injEq]
    norm_num
  have hsmall : (⟨(2 : ℝ) ^ 28 / ((2 : ℝ) ^ 54 + 1),
      -((2 : ℝ) ^ 54 - 1) / ((2 : ℝ) ^ 54 + 1), 0⟩ : Vec3).y + 1 < NumberEpsilon := by
    simp only []
    rw [NumberEpsilon]
    rw [show -((2 : ℝ) ^ 54 - 1) / ((2 : ℝ) ^ 54 + 1) + 1 = 2 / ((2 : ℝ) ^ 54 + 1) by
      field_simp
      ring]
    rw [div_lt_div_iff (by positivity) (by norm_num)]
    norm_num
  have hq : bondQuat ⟨0, 0, 0⟩ ⟨(2 : ℝ) ^ 28, -((2 : ℝ) ^ 54 - 1), 0⟩ = ⟨0, 0, 1, 0⟩ := by
    rw [bondQuat, hdiff, hnz]
    exact setFrom_up_near_antiparallel _ hsmall
  refine ⟨?_, ?_, ?_⟩
  · intro h
    have h2 := congrArg Vec3.x h
    simp only [] at h2
    norm_num at h2
  · rw [bondMesh_one]
    simp
  · rw [hq, applyQ_z180_up, hdiff, hnz]
    intro hcontra
    have h2 := congrArg Vec3.x hcontra
    simp only [] at h2
    have hpos : (0 : ℝ) < (2 : ℝ) ^ 28 / ((2 : ℝ) ^ 54 + 1) := by positivity
    rw [← h2] at hpos
    norm_num at hpos

/-- C8: when the input atom list is empty, the 2D layout returns the default
minimal view frame `0 0 100 100` and empty normalized-atom and bond sets; no
division is ever reached, so there is no division by zero and no crash. -/
theorem c8_empty_atoms_default_frame (bs : List Bond) :
    layout ⟨[], bs⟩ = ⟨[], [], ⟨0, 0, 100, 100⟩⟩ := by
  simp [layout]
